import Mathlib

/-!
Verification of the knowledge-graph triplet extraction and refinement engine
(`kg_utils.py`).  The NLP annotation pipeline (spaCy tokenisation, POS tagging,
entity recognition, coreference resolution, retokenisation) is an external
collaborator; its per-sentence output contract is modelled by the input types
`Token`, `EntIn`, `ChunkIn`, `SentIn`.  Everything from the per-sentence tier
construction onwards is a direct translation of the source.
-/

namespace KG

/-! Python string primitives, modelled on Unicode code-point lists. -/

/-- Lexicographic comparison of code-point lists; models the order used by
Python `sorted` on strings. -/
def lexLe : List Char → List Char → Bool
  | [], _ => true
  | _ :: _, [] => false
  | a :: as, b :: bs => if a < b then true else if b < a then false else lexLe as bs

/-- Python `a <= b` on strings, as a proposition (used for sorting subjects). -/
def strLe (a b : String) : Prop := lexLe a.data b.data = true

instance : DecidableRel strLe :=
  fun a b => inferInstanceAs (Decidable (lexLe a.data b.data = true))

/-- Python `str.lower()` (code-point-wise lowercasing). -/
def lowerStr (s : String) : String := ⟨s.data.map Char.toLower⟩

/-- Python `str.strip()`: drop whitespace from both ends. -/
def stripStr (s : String) : String :=
  ⟨((s.data.dropWhile Char.isWhitespace).reverse.dropWhile Char.isWhitespace).reverse⟩

/-- Contiguous-subsequence test on code-point lists. -/
def hasSeg (p : List Char) : List Char → Bool
  | [] => p.isEmpty
  | c :: t => p.isPrefixOf (c :: t) || hasSeg p t

/-- Python `p in s` substring containment. -/
def pyIn (p s : String) : Bool := hasSeg p.data s.data

/-- Fuel-bounded worker for `removeSeg`; every step consumes at least one
input character, so fuel equal to the input length is always sufficient. -/
def removeSegAux (p : List Char) : Nat → List Char → List Char
  | _, [] => []
  | 0, s => s
  | fuel + 1, c :: t =>
    if p ≠ [] ∧ p.isPrefixOf (c :: t) then removeSegAux p fuel ((c :: t).drop p.length)
    else c :: removeSegAux p fuel t

/-- Remove all leftmost non-overlapping occurrences of `p`; an empty pattern
removes nothing, matching the net effect of Python `s.replace(p, "")`. -/
def removeSeg (p s : List Char) : List Char := removeSegAux p s.length s

/-- Python `s.replace(p, "")`. -/
def pyRemoveStr (s p : String) : String := ⟨removeSeg p.data s.data⟩

/-! Data model: the annotation adapter's per-sentence output. -/

/-- One token of a processed sentence, with the spaCy attributes the core
reads: `text`, `lemma_`, `pos_`, `is_stop`, `is_punct`. -/
structure Token where
  text : String
  lemma_ : String
  pos_ : String
  is_stop : Bool
  is_punct : Bool
deriving DecidableEq, Repr

/-- A token-index span `[start, stop)` into the token list `doc` of the
sentence (or title) it was built from.  spaCy's `span.end` is called `stop`
because `end` is reserved in Lean. -/
structure Span where
  doc : List Token
  start : Nat
  stop : Nat
deriving DecidableEq, Repr

/-- The tokens covered by a span (iteration over a spaCy span). -/
def Span.toks (s : Span) : List Token := (s.doc.drop s.start).take (s.stop - s.start)

/-- spaCy `span.text.lower()`.  The source only applies it to single-token
(global-entity) spans, for which it is the token's lowercased text. -/
def Span.lowText (s : Span) : String :=
  lowerStr (String.intercalate " " (s.toks.map Token.text))

/-- One Subject-Relation-Object row of the triplet collection. -/
structure Triplet where
  subject : String
  relation : String
  object : String
deriving DecidableEq, Repr

/-- A named-entity span of the adapter's output, with its category label. -/
structure EntIn where
  start : Nat
  stop : Nat
  label_ : String
deriving DecidableEq, Repr

/-- A noun-chunk span of the adapter's output. -/
structure ChunkIn where
  start : Nat
  stop : Nat
deriving DecidableEq, Repr

/-- A sentence as produced by the annotation adapter, post retokenisation. -/
structure SentIn where
  toks : List Token
  ents : List EntIn
  chunks : List ChunkIn
deriving DecidableEq, Repr

/-! Entity classification (source lines 66-99). -/

def mainLabels : List String :=
  ["PERSON", "NORP", "FAC", "ORG", "GPE", "LOC", "PRODUCT", "EVENT",
   "WORK_OF_ART", "LAW", "LANGUAGE"]

def addnLabels : List String := ["DATE", "TIME", "MONEY", "QUANTITY"]

/-- Named entities recognised by spaCy kept in the Main tier. -/
def main_ents (sent : SentIn) : List Span :=
  (sent.ents.filter (fun e => mainLabels.contains e.label_)).map
    (fun e => ⟨sent.toks, e.start, e.stop⟩)

/-- Additional entities (date, time, money, quantity). -/
def addn_ents (sent : SentIn) : List Span :=
  (sent.ents.filter (fun e => addnLabels.contains e.label_)).map
    (fun e => ⟨sent.toks, e.start, e.stop⟩)

/-- Domain-specific (global) entities: every single token whose lowercased
text is in the caller-supplied list becomes a one-token span. -/
def global_ents (global_ents_list : List String) (sent : SentIn) : List Span :=
  ((sent.toks.enum).filter (fun p => global_ents_list.contains (lowerStr p.2.text))).map
    (fun p => ⟨sent.toks, p.1, p.1 + 1⟩)

/-- Noun chunks as spans over the sentence tokens. -/
def noun_chunks (sent : SentIn) : List Span :=
  sent.chunks.map (fun c => ⟨sent.toks, c.start, c.stop⟩)

/-- The verb tokens of the sentence, with their indices. -/
def verbs (sent : SentIn) : List (Nat × Token) :=
  sent.toks.enum.filter (fun p => p.2.pos_ == "VERB")

/-! Span selection (source lines 101-180). -/

/-- One tier of the subject search: scan left to right, break on a span
ending past the verb, keep (and overwrite) any span ending after
`prev_obj_end`. -/
def scanSubj (verb_i prev_obj_end : Nat) : List Span → Option Span → Option Span
  | [], acc => acc
  | e :: rest, acc =>
    if verb_i < e.stop then acc
    else if prev_obj_end < e.stop then scanSubj verb_i prev_obj_end rest (some e)
    else scanSubj verb_i prev_obj_end rest acc

/-- Tiered subject search: Main, then Global, then noun chunks, then
Additional. -/
def pickSubj (main glob chunks addn : List Span) (verb_i prev_obj_end : Nat) : Option Span :=
  match scanSubj verb_i prev_obj_end main none with
  | some s => some s
  | none =>
    match scanSubj verb_i prev_obj_end glob none with
    | some s => some s
    | none =>
      match scanSubj verb_i prev_obj_end chunks none with
      | some s => some s
      | none => scanSubj verb_i prev_obj_end addn none

/-- One tier of the object search (Main / noun-chunk / Additional): the tier
list is scanned reversed; break on a span ending at or before the verb,
otherwise keep (and overwrite). -/
def scanObj (verb_i : Nat) : List Span → Option Span → Option Span
  | [], acc => acc
  | e :: rest, acc =>
    if e.stop ≤ verb_i then acc else scanObj verb_i rest (some e)

/-- Global tier of the object search: additionally skip (without breaking) a
candidate whose lowercased text equals the verb's lowercased text. -/
def scanObjGlob (verb_i : Nat) (verb_low : String) : List Span → Option Span → Option Span
  | [], acc => acc
  | e :: rest, acc =>
    if e.stop ≤ verb_i then acc
    else if e.lowText ≠ verb_low then scanObjGlob verb_i verb_low rest (some e)
    else scanObjGlob verb_i verb_low rest acc

/-- Tiered object search over the reversed tier lists. -/
def pickObj (main glob chunks addn : List Span) (verb_i : Nat) (verb_low : String) :
    Option Span :=
  match scanObj verb_i main.reverse none with
  | some o => some o
  | none =>
    match scanObjGlob verb_i verb_low glob.reverse none with
    | some o => some o
    | none =>
      match scanObj verb_i chunks.reverse none with
      | some o => some o
      | none => scanObj verb_i addn.reverse none

/-! Triplet assembly (source lines 185-213). -/

/-- Subject/object text: surface tokens with stop words and punctuation
removed, lowercased, space-joined, stripped. -/
def spanField (s : Span) : String :=
  stripStr (String.intercalate " "
    ((s.toks.filter (fun t => !t.is_stop && !t.is_punct)).map (fun t => lowerStr t.text)))

/-- Relation text: lemmas of the tokens in `sent[rel_start:rel_end]` that are
the verb itself or neither stop word nor punctuation, lowercased,
space-joined, stripped. -/
def relField (sentToks : List Token) (rel_start rel_end verb_i : Nat) : String :=
  stripStr (String.intercalate " "
    ((((sentToks.enum.drop rel_start).take (rel_end - rel_start)).filter
        (fun p => p.1 == verb_i || (!p.2.is_stop && !p.2.is_punct))).map
      (fun p => lowerStr p.2.lemma_)))

/-- Running state of the extraction loop: the growing triplet collection and
the previous subject span, object span, and object end index. -/
structure ExtState where
  sro : List Triplet
  prev_subj : Span
  prev_obj : Span
  prev_obj_end : Nat
deriving DecidableEq, Repr

/-- Processing of a single verb: pick subject and object, build the candidate
triplet, accept or reject it, collapse an immediate duplicate by popping the
last accepted row, and update the previous-span state.  Returns `none` when
the source would raise (popping from an empty collection). -/
def processVerb (sentToks : List Token) (main glob chunks addn : List Span)
    (default_subj : Span) (st : ExtState) (v : Nat × Token) : Option ExtState :=
  let subjSel := pickSubj main glob chunks addn v.1 st.prev_obj_end
  let subj := match subjSel with | some s => s | none => default_subj
  let rel_start := match subjSel with | some s => s.stop | none => v.1
  let objSel := pickObj main glob chunks addn v.1 (lowerStr v.2.text)
  let obj := match objSel with | some o => o | none => st.prev_obj
  let rel_end := match objSel with | some o => o.start | none => v.1 + 1
  let t : Triplet := ⟨spanField subj, relField sentToks rel_start rel_end v.1, spanField obj⟩
  let sroNew : Option (List Triplet) :=
    if t.subject ≠ "" ∧ t.relation ≠ "" ∧ t.object ≠ "" ∧ t.subject ≠ t.object then
      if subj = st.prev_subj ∧ obj = st.prev_obj then
        match st.sro.getLast? with
        | none => none
        | some prevT =>
          some (st.sro.dropLast ++
            [if t.relation.length < prevT.relation.length then prevT else t])
      else some (st.sro ++ [t])
    else some st.sro
  sroNew.map (fun l => ⟨l, subj, obj, obj.stop⟩)

/-- Left fold that propagates the error case, modelling the sequential loop
with a possible raised exception. -/
def foldOpt {σ α : Type} (f : σ → α → Option σ) : σ → List α → Option σ
  | s, [] => some s
  | s, a :: l =>
    match f s a with
    | none => none
    | some s2 => foldOpt f s2 l

/-- The list of states after each processed element (used to state
per-verb-step properties of the extraction loop). -/
def statesAfter {σ α : Type} (f : σ → α → Option σ) : σ → List α → Option (List σ)
  | _, [] => some []
  | s, a :: l =>
    match f s a with
    | none => none
    | some s2 => (statesAfter f s2 l).map (fun rest => s2 :: rest)

/-- Processing of one sentence: build the four tier lists and the verb list,
reset `prev_obj_end` to 0, and fold over the verbs. -/
def processSent (global_ents_list : List String) (default_subj : Span)
    (st : ExtState) (sent : SentIn) : Option ExtState :=
  foldOpt
    (processVerb sent.toks (main_ents sent) (global_ents global_ents_list sent)
      (noun_chunks sent) (addn_ents sent) default_subj)
    { st with prev_obj_end := 0 } (verbs sent)

/-- The per-verb state trajectory of one sentence (same loop as
`processSent`, recording every intermediate state). -/
def sentStates (global_ents_list : List String) (default_subj : Span)
    (st : ExtState) (sent : SentIn) : Option (List ExtState) :=
  statesAfter
    (processVerb sent.toks (main_ents sent) (global_ents global_ents_list sent)
      (noun_chunks sent) (addn_ents sent) default_subj)
    { st with prev_obj_end := 0 } (verbs sent)

/-- The `nlp("")[:]` empty span initialising `prev_subj` and `prev_obj`. -/
def emptySpan : Span := ⟨[], 0, 0⟩

/-- Whole-document extraction (`extract_triplets`): the default subject is
the full title span; sentences are processed in order, the previous
subject/object spans carrying across sentence boundaries. -/
def extract_triplets (title : List Token) (global_ents_list : List String)
    (sents : List SentIn) : Option (List Triplet) :=
  (foldOpt (processSent global_ents_list ⟨title, 0, title.length⟩)
      ⟨[], emptySpan, emptySpan, 0⟩ sents).map ExtState.sro

/-! Post-processing (source lines 220-310). -/

/-- Occurrence count of a subject string in the collection
(`triplets.subject.value_counts()`). -/
def subjCount (triplets : List Triplet) (s : String) : Nat :=
  triplets.countP (fun r => r.subject == s)

/-- Occurrence count of an object string in the collection. -/
def objCount (triplets : List Triplet) (s : String) : Nat :=
  triplets.countP (fun r => r.object == s)

/-- Frequency pruning on subjects: tag every row with its subject's count in
the input, drop rows whose count is below the threshold, drop the count
column. -/
def prune_infreq_subjects (triplets : List Triplet) (threshold : Nat) : List Triplet :=
  ((triplets.map (fun r => (r, subjCount triplets r.subject))).filter
    (fun p => !decide (p.2 < threshold))).map Prod.fst

/-- Frequency pruning on objects. -/
def prune_infreq_objects (triplets : List Triplet) (threshold : Nat) : List Triplet :=
  ((triplets.map (fun r => (r, objCount triplets r.object))).filter
    (fun p => !decide (p.2 < threshold))).map Prod.fst

/-- Self-loop pruning: drop rows whose subject equals their object. -/
def prune_self_loops (triplets : List Triplet) : List Triplet :=
  triplets.filter (fun r => !(r.subject == r.object))

/-- Rewriting step of the subject merge: rows whose subject is `subj` get the
extension (relative to `prev_subj`) prepended to their relation and their
subject rewritten to `prev_subj`. -/
def mergeRewrite (rows : List Triplet) (prev_subj subj : String) : List Triplet :=
  rows.map (fun r =>
    if r.subject == subj then
      { r with subject := prev_subj,
               relation := (stripStr (pyRemoveStr subj prev_subj)) ++ " " ++ r.relation }
    else r)

/-- The linear walk of the sorted distinct subjects with the `prev_subj`
cursor. -/
def mergePass (rows : List Triplet) (prev_subj : String) : List String → List Triplet
  | [] => rows
  | subj :: rest =>
    if pyIn prev_subj subj then mergePass (mergeRewrite rows prev_subj subj) prev_subj rest
    else mergePass rows subj rest

/-- `sorted(list(triplets.subject.unique()))`. -/
def sortedSubjects (triplets : List Triplet) : List String :=
  List.insertionSort strLe ((triplets.map Triplet.subject).dedup)

/-- Subject merge (`merge_duplicate_subjs`).  Returns `none` when the source
raises: `subjects[0]` on an empty collection is an `IndexError`. -/
def merge_duplicate_subjs (triplets : List Triplet) : Option (List Triplet) :=
  match sortedSubjects triplets with
  | [] => none
  | p :: rest => some (mergePass triplets p rest)

/-- Maximum observed subject count over the rows of the collection. -/
def maxSubjCount (triplets : List Triplet) : Nat :=
  (triplets.map (fun r => subjCount triplets r.subject)).foldr max 0

/-- Maximum observed object count over the rows of the collection. -/
def maxObjCount (triplets : List Triplet) : Nat :=
  (triplets.map (fun r => objCount triplets r.object)).foldr max 0

/-! Helper lemmas for the span searches. -/

lemma scanSubj_bounds (verb_i prev_obj_end : Nat) :
    ∀ (l : List Span) (acc : Option Span),
      (∀ s, acc = some s → s.stop ≤ verb_i ∧ prev_obj_end < s.stop) →
      ∀ s, scanSubj verb_i prev_obj_end l acc = some s →
        s.stop ≤ verb_i ∧ prev_obj_end < s.stop := by
  intro l
  induction l with
  | nil => intro acc hacc s hs; exact hacc s hs
  | cons e rest ih =>
    intro acc hacc s hs
    simp only [scanSubj] at hs
    by_cases h1 : verb_i < e.stop
    · rw [if_pos h1] at hs; exact hacc s hs
    · rw [if_neg h1] at hs
      by_cases h2 : prev_obj_end < e.stop
      · rw [if_pos h2] at hs
        refine ih (some e) ?_ s hs
        intro s2 hs2
        cases hs2
        exact ⟨Nat.le_of_not_lt h1, h2⟩
      · rw [if_neg h2] at hs
        exact ih acc hacc s hs

lemma scanObj_bounds (verb_i : Nat) :
    ∀ (l : List Span) (acc : Option Span),
      (∀ o, acc = some o → verb_i < o.stop) →
      ∀ o, scanObj verb_i l acc = some o → verb_i < o.stop := by
  intro l
  induction l with
  | nil => intro acc hacc o ho; exact hacc o ho
  | cons e rest ih =>
    intro acc hacc o ho
    simp only [scanObj] at ho
    by_cases h1 : e.stop ≤ verb_i
    · rw [if_pos h1] at ho; exact hacc o ho
    · rw [if_neg h1] at ho
      refine ih (some e) ?_ o ho
      intro o2 ho2
      cases ho2
      exact Nat.lt_of_not_le h1

lemma scanObjGlob_bounds (verb_i : Nat) (verb_low : String) :
    ∀ (l : List Span) (acc : Option Span),
      (∀ o, acc = some o → verb_i < o.stop ∧ o.lowText ≠ verb_low) →
      ∀ o, scanObjGlob verb_i verb_low l acc = some o →
        verb_i < o.stop ∧ o.lowText ≠ verb_low := by
  intro l
  induction l with
  | nil => intro acc hacc o ho; exact hacc o ho
  | cons e rest ih =>
    intro acc hacc o ho
    simp only [scanObjGlob] at ho
    by_cases h1 : e.stop ≤ verb_i
    · rw [if_pos h1] at ho; exact hacc o ho
    · rw [if_neg h1] at ho
      by_cases h2 : e.lowText ≠ verb_low
      · rw [if_pos h2] at ho
        refine ih (some e) ?_ o ho
        intro o2 ho2
        cases ho2
        exact ⟨Nat.lt_of_not_le h1, h2⟩
      · rw [if_neg h2] at ho
        exact ih acc hacc o ho

/-- C5: every subject span selected from a tier (not the title fallback) ends
at or before the verb and strictly after the running lower bound
`prev_obj_end`. -/
theorem subject_search_bounds (main glob chunks addn : List Span)
    (verb_i prev_obj_end : Nat) (s : Span)
    (h : pickSubj main glob chunks addn verb_i prev_obj_end = some s) :
    s.stop ≤ verb_i ∧ prev_obj_end < s.stop := by
  unfold pickSubj at h
  cases hm : scanSubj verb_i prev_obj_end main none with
  | some s1 =>
    rw [hm] at h
    cases h
    exact scanSubj_bounds _ _ main none (by intro s2 hs2; cases hs2) _ hm
  | none =>
    rw [hm] at h
    cases hg : scanSubj verb_i prev_obj_end glob none with
    | some s1 =>
      rw [hg] at h
      cases h
      exact scanSubj_bounds _ _ glob none (by intro s2 hs2; cases hs2) _ hg
    | none =>
      rw [hg] at h
      cases hc : scanSubj verb_i prev_obj_end chunks none with
      | some s1 =>
        rw [hc] at h
        cases h
        exact scanSubj_bounds _ _ chunks none (by intro s2 hs2; cases hs2) _ hc
      | none =>
        rw [hc] at h
        exact scanSubj_bounds _ _ addn none (by intro s2 hs2; cases hs2) _ h

/-- Witness for `subject_search_bounds` at a concrete tier configuration. -/
theorem subject_search_bounds_witness :
    (⟨[], 0, 1⟩ : Span).stop ≤ 2 ∧ 0 < (⟨[], 0, 1⟩ : Span).stop :=
  subject_search_bounds [⟨[], 0, 1⟩] [] [] [] 2 0 ⟨[], 0, 1⟩ (by decide)

/-- C6: every object span selected by the object search ends strictly after
the verb, and a Global-tier selection additionally never has the verb's own
lowercased text. -/
theorem object_search_bounds (main glob chunks addn : List Span) (verb_i : Nat)
    (verb_low : String) :
    (∀ o, pickObj main glob chunks addn verb_i verb_low = some o → verb_i < o.stop) ∧
    (∀ o, scanObjGlob verb_i verb_low glob.reverse none = some o →
      verb_i < o.stop ∧ o.lowText ≠ verb_low) := by
  constructor
  · intro o h
    unfold pickObj at h
    cases hm : scanObj verb_i main.reverse none with
    | some o1 =>
      rw [hm] at h
      cases h
      exact scanObj_bounds _ main.reverse none (by intro o2 ho2; cases ho2) _ hm
    | none =>
      rw [hm] at h
      cases hg : scanObjGlob verb_i verb_low glob.reverse none with
      | some o1 =>
        rw [hg] at h
        cases h
        exact (scanObjGlob_bounds _ _ glob.reverse none (by intro o2 ho2; cases ho2) _ hg).1
      | none =>
        rw [hg] at h
        cases hc : scanObj verb_i chunks.reverse none with
        | some o1 =>
          rw [hc] at h
          cases h
          exact scanObj_bounds _ chunks.reverse none (by intro o2 ho2; cases ho2) _ hc
        | none =>
          rw [hc] at h
          exact scanObj_bounds _ addn.reverse none (by intro o2 ho2; cases ho2) _ h
  · intro o h
    exact scanObjGlob_bounds _ _ glob.reverse none (by intro o2 ho2; cases ho2) _ h

/-- Witness for `object_search_bounds` at a concrete tier configuration. -/
theorem object_search_bounds_witness :
    0 < (⟨[], 2, 3⟩ : Span).stop ∧
      (0 < (⟨[], 2, 3⟩ : Span).stop ∧ (⟨[], 2, 3⟩ : Span).lowText ≠ "ran") := by
  refine ⟨(object_search_bounds [⟨[], 2, 3⟩] [] [] [] 0 "ran").1 ⟨[], 2, 3⟩ (by decide),
    (object_search_bounds [] [⟨[], 2, 3⟩] [] [] 0 "ran").2 ⟨[], 2, 3⟩ (by decide)⟩

/-! Frequency pruning as a row filter. -/

lemma prune_infreq_subjects_eq_filter (ts : List Triplet) (th : Nat) :
    prune_infreq_subjects ts th =
      ts.filter (fun r => !decide (subjCount ts r.subject < th)) := by
  unfold prune_infreq_subjects
  rw [List.filter_map, List.map_map]
  simp [Function.comp_def]

lemma prune_infreq_objects_eq_filter (ts : List Triplet) (th : Nat) :
    prune_infreq_objects ts th =
      ts.filter (fun r => !decide (objCount ts r.object < th)) := by
  unfold prune_infreq_objects
  rw [List.filter_map, List.map_map]
  simp [Function.comp_def]

/-- C10: each pruning pass only deletes whole rows: its output is a sublist
of its input (rows field-for-field identical, original order, no extra
column). -/
theorem pruning_passes_are_row_sublists (ts : List Triplet) (threshold : Nat) :
    (prune_infreq_subjects ts threshold).Sublist ts ∧
      (prune_infreq_objects ts threshold).Sublist ts ∧
      (prune_self_loops ts).Sublist ts := by
  refine ⟨?_, ?_, ?_⟩
  · rw [prune_infreq_subjects_eq_filter]; exact List.filter_sublist ts
  · rw [prune_infreq_objects_eq_filter]; exact List.filter_sublist ts
  · exact List.filter_sublist ts

lemma subjCount_pos_of_mem {ts : List Triplet} {r : Triplet} (h : r ∈ ts) :
    0 < subjCount ts r.subject := by
  apply List.countP_pos_iff.mpr
  exact ⟨r, h, by simp⟩

lemma objCount_pos_of_mem {ts : List Triplet} {r : Triplet} (h : r ∈ ts) :
    0 < objCount ts r.object := by
  apply List.countP_pos_iff.mpr
  exact ⟨r, h, by simp⟩

lemma prune_infreq_subjects_one (ts : List Triplet) : prune_infreq_subjects ts 1 = ts := by
  rw [prune_infreq_subjects_eq_filter]
  apply List.filter_eq_self.mpr
  intro r hr
  have := subjCount_pos_of_mem hr
  simp only [Bool.not_eq_true', decide_eq_false_iff_not]
  omega

lemma prune_infreq_objects_one (ts : List Triplet) : prune_infreq_objects ts 1 = ts := by
  rw [prune_infreq_objects_eq_filter]
  apply List.filter_eq_self.mpr
  intro r hr
  have := objCount_pos_of_mem hr
  simp only [Bool.not_eq_true', decide_eq_false_iff_not]
  omega

lemma le_foldr_max {a : Nat} {l : List Nat} (h : a ∈ l) : a ≤ l.foldr max 0 := by
  induction l with
  | nil => simp at h
  | cons b t ih =>
    rcases List.mem_cons.mp h with rfl | h2
    · exact le_max_left _ _
    · exact le_trans (ih h2) (le_max_right _ _)

lemma subjCount_le_max {ts : List Triplet} {r : Triplet} (h : r ∈ ts) :
    subjCount ts r.subject ≤ maxSubjCount ts :=
  le_foldr_max (List.mem_map.mpr ⟨r, h, rfl⟩)

lemma objCount_le_max {ts : List Triplet} {r : Triplet} (h : r ∈ ts) :
    objCount ts r.object ≤ maxObjCount ts :=
  le_foldr_max (List.mem_map.mpr ⟨r, h, rfl⟩)

/-- C8: frequency pruning with threshold 1 removes no rows, and with a
threshold strictly above the maximum observed count removes every row. -/
theorem frequency_pruning_extremes (ts : List Triplet) (_hne : ts ≠ []) :
    prune_infreq_subjects ts 1 = ts ∧ prune_infreq_objects ts 1 = ts ∧
      (∀ th, maxSubjCount ts < th → prune_infreq_subjects ts th = []) ∧
      (∀ th, maxObjCount ts < th → prune_infreq_objects ts th = []) := by
  refine ⟨prune_infreq_subjects_one ts, prune_infreq_objects_one ts, ?_, ?_⟩
  · intro th hth
    rw [prune_infreq_subjects_eq_filter]
    apply List.filter_eq_nil_iff.mpr
    intro r hr
    have := subjCount_le_max hr
    simp only [Bool.not_eq_true', decide_eq_false_iff_not, not_not]
    omega
  · intro th hth
    rw [prune_infreq_objects_eq_filter]
    apply List.filter_eq_nil_iff.mpr
    intro r hr
    have := objCount_le_max hr
    simp only [Bool.not_eq_true', decide_eq_false_iff_not, not_not]
    omega

/-- Witness for `frequency_pruning_extremes` on a concrete collection. -/
theorem frequency_pruning_extremes_witness :
    prune_infreq_subjects [(⟨"a", "r", "x"⟩ : Triplet)] 1 = [⟨"a", "r", "x"⟩] ∧
      prune_infreq_objects [(⟨"a", "r", "x"⟩ : Triplet)] 1 = [⟨"a", "r", "x"⟩] ∧
      (∀ th, maxSubjCount [(⟨"a", "r", "x"⟩ : Triplet)] < th →
        prune_infreq_subjects [(⟨"a", "r", "x"⟩ : Triplet)] th = []) ∧
      (∀ th, maxObjCount [(⟨"a", "r", "x"⟩ : Triplet)] < th →
        prune_infreq_objects [(⟨"a", "r", "x"⟩ : Triplet)] th = []) :=
  frequency_pruning_extremes [⟨"a", "r", "x"⟩] (by decide)

/-- The concrete collection on which the frequency filters fail to commute. -/
def c2rows : List Triplet :=
  [⟨"a", "r", "x"⟩, ⟨"a", "r", "x"⟩, ⟨"b", "r", "x"⟩, ⟨"b", "r", "y"⟩]

/-- C2 counterexample: with both thresholds 2, subject pruning then object
pruning keeps three rows while the opposite order keeps two, so the
post-processing filters do not commute. -/
theorem filters_do_not_commute :
    prune_infreq_objects (prune_infreq_subjects c2rows 2) 2 ≠
      prune_infreq_subjects (prune_infreq_objects c2rows 2) 2 := by decide

/-- C2 amended: when both frequency thresholds are 1 the frequency filters
are the identity, and all six orders of the three filters coincide. -/
theorem filters_commute_at_threshold_one (ts : List Triplet) :
    prune_self_loops (prune_infreq_objects (prune_infreq_subjects ts 1) 1) =
        prune_self_loops ts ∧
      prune_self_loops (prune_infreq_subjects (prune_infreq_objects ts 1) 1) =
        prune_self_loops ts ∧
      prune_infreq_objects (prune_self_loops (prune_infreq_subjects ts 1)) 1 =
        prune_self_loops ts ∧
      prune_infreq_subjects (prune_self_loops (prune_infreq_objects ts 1)) 1 =
        prune_self_loops ts ∧
      prune_infreq_objects (prune_infreq_subjects (prune_self_loops ts) 1) 1 =
        prune_self_loops ts ∧
      prune_infreq_subjects (prune_infreq_objects (prune_self_loops ts) 1) 1 =
        prune_self_loops ts := by
  refine ⟨?_, ?_, ?_, ?_, ?_, ?_⟩ <;>
    simp only [prune_infreq_subjects_one, prune_infreq_objects_one]

/-- C3 counterexample: the subject-merge step on the empty collection does
not return the empty collection; `subjects[0]` raises an `IndexError`. -/
theorem merge_on_empty_is_not_noop :
    merge_duplicate_subjs ([] : List Triplet) ≠ some [] := by decide

/-- C3 amended: on the empty collection the three pruning steps are no-ops,
while the subject-merge step raises (modelled as `none`) instead of
returning the empty collection. -/
theorem empty_collection_postprocessing :
    ∀ threshold : Nat,
      prune_infreq_subjects [] threshold = [] ∧
        prune_infreq_objects [] threshold = [] ∧
        prune_self_loops [] = [] ∧
        merge_duplicate_subjs ([] : List Triplet) = none :=
  fun _ => ⟨rfl, rfl, rfl, rfl⟩

/-! Invariant of the triplet assembler: accepted rows are non-degenerate. -/

/-- The acceptance condition of the triplet assembler. -/
def goodTriplet (t : Triplet) : Prop :=
  t.subject ≠ "" ∧ t.relation ≠ "" ∧ t.object ≠ "" ∧ t.subject ≠ t.object

lemma foldOpt_preserves {σ α : Type} (P : σ → Prop) (f : σ → α → Option σ)
    (hf : ∀ s a s', P s → f s a = some s' → P s') :
    ∀ (l : List α) (s s' : σ), foldOpt f s l = some s' → P s → P s' := by
  intro l
  induction l with
  | nil =>
    intro s s' h hP
    simp only [foldOpt] at h
    cases h
    exact hP
  | cons a rest ih =>
    intro s s' h hP
    simp only [foldOpt] at h
    cases hfa : f s a with
    | none => rw [hfa] at h; cases h
    | some s2 =>
      rw [hfa] at h
      exact ih s2 s' h (hf s a s2 hP hfa)

lemma processVerb_preserves_good (sentToks : List Token) (main glob chunks addn : List Span)
    (default_subj : Span) (st : ExtState) (v : Nat × Token) (st' : ExtState)
    (hinv : ∀ t ∈ st.sro, goodTriplet t)
    (h : processVerb sentToks main glob chunks addn default_subj st v = some st') :
    ∀ t ∈ st'.sro, goodTriplet t := by
  simp only [processVerb] at h
  rw [Option.map_eq_some'] at h
  obtain ⟨l, hl, hst⟩ := h
  have hsro : st'.sro = l := by rw [← hst]
  rw [hsro]
  split at hl
  · rename_i hguard
    split at hl
    · rename_i hdup
      cases hlast : st.sro.getLast? with
      | none => rw [hlast] at hl; cases hl
      | some prevT =>
        rw [hlast] at hl
        cases hl
        intro t ht
        rcases List.mem_append.mp ht with hmem | hmem
        · exact hinv t ((List.dropLast_sublist st.sro).subset hmem)
        · have ht2 := List.mem_singleton.mp hmem
          subst ht2
          split
          · exact hinv prevT (List.mem_of_mem_getLast? (by rw [hlast]; rfl))
          · exact hguard
    · cases hl
      intro t ht
      rcases List.mem_append.mp ht with hmem | hmem
      · exact hinv t hmem
      · have ht2 := List.mem_singleton.mp hmem
        subst ht2
        exact hguard
  · cases hl
    exact hinv

lemma processSent_preserves_good (gl : List String) (default_subj : Span)
    (st : ExtState) (sent : SentIn) (st' : ExtState)
    (hinv : ∀ t ∈ st.sro, goodTriplet t)
    (h : processSent gl default_subj st sent = some st') :
    ∀ t ∈ st'.sro, goodTriplet t := by
  unfold processSent at h
  exact foldOpt_preserves (fun s => ∀ t ∈ s.sro, goodTriplet t) _
    (fun s a s2 hP hf => processVerb_preserves_good _ _ _ _ _ _ s a s2 hP hf)
    (verbs sent) _ st' h hinv

/-- C7: every triplet in the collection returned by `extract_triplets` has
non-empty subject, relation and object texts, and its subject differs from
its object. -/
theorem emitted_triplets_nondegenerate (title : List Token) (gl : List String)
    (sents : List SentIn) (out : List Triplet)
    (h : extract_triplets title gl sents = some out) :
    ∀ t ∈ out, t.subject ≠ "" ∧ t.relation ≠ "" ∧ t.object ≠ "" ∧ t.subject ≠ t.object := by
  unfold extract_triplets at h
  rw [Option.map_eq_some'] at h
  obtain ⟨stF, hfold, hout⟩ := h
  have hall : ∀ t ∈ stF.sro, goodTriplet t := by
    refine foldOpt_preserves (fun s => ∀ t ∈ s.sro, goodTriplet t) _
      (fun s a s2 hP hf => processSent_preserves_good _ _ s a s2 hP hf)
      sents _ stF hfold ?_
    intro t ht
    simp at ht
  rw [← hout]
  exact hall

/-! Concrete document exhibiting the cross-sentence behaviour of the
duplicate-collapsing step (claim C1). -/

def c1Title : List Token := [⟨"Napoleon", "napoleon", "PROPN", false, false⟩]

def c1Sent1 : SentIn :=
  ⟨[⟨"born", "bear", "VERB", false, false⟩, ⟨"in", "in", "ADP", true, false⟩,
    ⟨"Corsica", "corsica", "PROPN", false, false⟩], [⟨2, 3, "GPE"⟩], []⟩

def c1Sent2 : SentIn := ⟨[⟨"fled", "flee", "VERB", false, false⟩], [], []⟩

/-- C1 (failing input): sentence 1 alone yields the accepted row
("napoleon", "bear", "corsica").  Appending sentence 2 — which has no
entities or noun chunks, so both its subject and object fall back to the
spans carried over from sentence 1 — makes the duplicate-collapsing step pop
and replace that row: the previous-subject/previous-object spans are never
reset at a sentence boundary, so an accepted triplet of a different sentence
is removed, contradicting the per-sentence reading (and the source's own
comment "Check for duplicate triplets within same sentence"). -/
theorem dedup_pop_crosses_sentences :
    extract_triplets c1Title [] [c1Sent1] = some [⟨"napoleon", "bear", "corsica"⟩] ∧
      extract_triplets c1Title [] [c1Sent1, c1Sent2] =
        some [⟨"napoleon", "flee", "corsica"⟩] :=
  ⟨by decide, by decide⟩

/-- Witness for `emitted_triplets_nondegenerate` on the concrete document. -/
theorem emitted_triplets_nondegenerate_witness :
    (⟨"napoleon", "bear", "corsica"⟩ : Triplet).subject ≠ "" ∧
      (⟨"napoleon", "bear", "corsica"⟩ : Triplet).relation ≠ "" ∧
      (⟨"napoleon", "bear", "corsica"⟩ : Triplet).object ≠ "" ∧
      (⟨"napoleon", "bear", "corsica"⟩ : Triplet).subject ≠
        (⟨"napoleon", "bear", "corsica"⟩ : Triplet).object :=
  emitted_triplets_nondegenerate c1Title [] [c1Sent1] [⟨"napoleon", "bear", "corsica"⟩]
    (by decide) ⟨"napoleon", "bear", "corsica"⟩ (by decide)

/-! Characterisation of the reversed object scan, used for claim C4. -/

lemma scanObj_acc_some (vi : Nat) :
    ∀ (m : List Span) (a : Span), ∃ o, scanObj vi m (some a) = some o := by
  intro m
  induction m with
  | nil => intro a; exact ⟨a, rfl⟩
  | cons e rest ih =>
    intro a
    simp only [scanObj]
    by_cases h : e.stop ≤ vi
    · rw [if_pos h]; exact ⟨a, rfl⟩
    · rw [if_neg h]; exact ih e

lemma scanObj_none_mono {vi vi' : Nat} (hle : vi ≤ vi') :
    ∀ m : List Span, scanObj vi m none = none → scanObj vi' m none = none := by
  intro m h
  cases m with
  | nil => rfl
  | cons e rest =>
    simp only [scanObj] at h ⊢
    by_cases h1 : e.stop ≤ vi
    · rw [if_pos (le_trans h1 hle)]
    · rw [if_neg h1] at h
      obtain ⟨o, ho⟩ := scanObj_acc_some vi rest e
      rw [ho] at h
      cases h

lemma scanObj_mem (vi : Nat) :
    ∀ (m : List Span) (acc : Option Span) (o : Span),
      scanObj vi m acc = some o → acc = some o ∨ o ∈ m := by
  intro m
  induction m with
  | nil => intro acc o h; exact Or.inl h
  | cons e rest ih =>
    intro acc o h
    simp only [scanObj] at h
    by_cases h1 : e.stop ≤ vi
    · rw [if_pos h1] at h; exact Or.inl h
    · rw [if_neg h1] at h
      rcases ih (some e) o h with h2 | h2
      · injection h2 with h3
        exact Or.inr (h3 ▸ List.mem_cons_self e rest)
      · exact Or.inr (List.mem_cons_of_mem _ h2)

lemma scanObj_min_aux (vi : Nat) :
    ∀ m : List Span, List.Pairwise (fun a b : Span => b.stop ≤ a.stop) m →
      ∀ acc : Option Span,
        (∀ a, acc = some a → vi < a.stop ∧ ∀ e ∈ m, e.stop ≤ a.stop) →
        ∀ o, scanObj vi m acc = some o →
          vi < o.stop ∧ (∀ e ∈ m, vi < e.stop → o.stop ≤ e.stop) ∧
            (∀ a, acc = some a → o.stop ≤ a.stop) := by
  intro m
  induction m with
  | nil =>
    intro _ acc hacc o h
    refine ⟨(hacc o h).1, by simp, ?_⟩
    intro a ha
    have h2 := ha.symm.trans h
    injection h2 with h3
    rw [h3]
  | cons e rest ih =>
    intro hsorted acc hacc o h
    have hpw := List.pairwise_cons.mp hsorted
    simp only [scanObj] at h
    by_cases h1 : e.stop ≤ vi
    · rw [if_pos h1] at h
      obtain ⟨ho1, _⟩ := hacc o h
      refine ⟨ho1, ?_, ?_⟩
      · intro x hx hvx
        exfalso
        have hxle : x.stop ≤ vi := by
          rcases List.mem_cons.mp hx with rfl | hx2
          · exact h1
          · exact le_trans (hpw.1 x hx2) h1
        exact absurd hvx (not_lt.mpr hxle)
      · intro a ha
        have h2 := ha.symm.trans h
        injection h2 with h3
        rw [h3]
    · rw [if_neg h1] at h
      have hvi : vi < e.stop := Nat.lt_of_not_le h1
      have hrec := ih hpw.2 (some e) ?_ o h
      · refine ⟨hrec.1, ?_, ?_⟩
        · intro x hx hvx
          rcases List.mem_cons.mp hx with rfl | hx2
          · exact hrec.2.2 x rfl
          · exact hrec.2.1 x hx2 hvx
        · intro a ha
          obtain ⟨_, ha2⟩ := hacc a ha
          exact le_trans (hrec.2.2 e rfl) (ha2 e (List.mem_cons_self e rest))
      · intro a ha
        injection ha with h3
        subst h3
        exact ⟨hvi, fun x hx => hpw.1 x hx⟩

lemma scanObj_min (vi : Nat) (m : List Span)
    (hs : List.Pairwise (fun a b : Span => b.stop ≤ a.stop) m) (o : Span)
    (h : scanObj vi m none = some o) :
    vi < o.stop ∧ ∀ e ∈ m, vi < e.stop → o.stop ≤ e.stop := by
  have := scanObj_min_aux vi m hs none (by intro a ha; cases ha) o h
  exact ⟨this.1, this.2.1⟩

lemma scanObj_fail_bound (vi : Nat) (m : List Span)
    (hs : List.Pairwise (fun a b : Span => b.stop ≤ a.stop) m)
    (h : scanObj vi m none = none) : ∀ e ∈ m, e.stop ≤ vi := by
  cases m with
  | nil => intro e he; simp at he
  | cons e rest =>
    simp only [scanObj] at h
    by_cases h1 : e.stop ≤ vi
    · intro x hx
      rcases List.mem_cons.mp hx with rfl | hx2
      · exact h1
      · exact le_trans ((List.pairwise_cons.mp hs).1 x hx2) h1
    · rw [if_neg h1] at h
      obtain ⟨o, ho⟩ := scanObj_acc_some vi rest e
      rw [ho] at h
      cases h

lemma scanObj_stop_mono {vi vi' : Nat} (hle : vi ≤ vi') (m : List Span)
    (hs : List.Pairwise (fun a b : Span => b.stop ≤ a.stop) m) {o o' : Span}
    (h : scanObj vi m none = some o) (h' : scanObj vi' m none = some o') :
    o.stop ≤ o'.stop := by
  have hmin := scanObj_min vi m hs o h
  have hq := (scanObj_min vi' m hs o' h').1
  have hmem : o' ∈ m := by
    rcases scanObj_mem vi' m none o' h' with h2 | h2
    · cases h2
    · exact h2
  exact hmin.2 o' hmem (lt_of_le_of_lt hle hq)

/-- Object-search bookkeeping invariant after processing a verb at index `u`:
the previous-object span's end is the recorded `prev_obj_end`, and the
recorded value is the result of the highest tier that succeeded at `u` (all
tiers having failed in the fallback case).  Stated for an empty Global
tier. -/
def Kinv (main chunks addn : List Span) (u : Nat) (st : ExtState) : Prop :=
  st.prev_obj.stop = st.prev_obj_end ∧
    ((scanObj u main.reverse none = none ∧ scanObj u chunks.reverse none = none ∧
        scanObj u addn.reverse none = none) ∨
      (∃ o, scanObj u main.reverse none = some o ∧ o.stop = st.prev_obj_end) ∨
      (scanObj u main.reverse none = none ∧
        ∃ o, scanObj u chunks.reverse none = some o ∧ o.stop = st.prev_obj_end) ∨
      (scanObj u main.reverse none = none ∧ scanObj u chunks.reverse none = none ∧
        ∃ o, scanObj u addn.reverse none = some o ∧ o.stop = st.prev_obj_end))

lemma pickObj_nil_glob (main chunks addn : List Span) (vi : Nat) (vlow : String) :
    pickObj main [] chunks addn vi vlow =
      match scanObj vi main.reverse none with
      | some o => some o
      | none =>
        match scanObj vi chunks.reverse none with
        | some o => some o
        | none => scanObj vi addn.reverse none := rfl

lemma processVerb_obj_fields (sentToks : List Token) (main glob chunks addn : List Span)
    (default_subj : Span) (st : ExtState) (v : Nat × Token) (st' : ExtState)
    (h : processVerb sentToks main glob chunks addn default_subj st v = some st') :
    st'.prev_obj =
        (match pickObj main glob chunks addn v.1 (lowerStr v.2.text) with
          | some o => o
          | none => st.prev_obj) ∧
      st'.prev_obj_end =
        (match pickObj main glob chunks addn v.1 (lowerStr v.2.text) with
          | some o => o
          | none => st.prev_obj).stop := by
  simp only [processVerb] at h
  rw [Option.map_eq_some'] at h
  obtain ⟨l, _, hst⟩ := h
  rw [← hst]
  exact ⟨rfl, rfl⟩

lemma processVerb_establishes_Kinv (sentToks : List Token) (main chunks addn : List Span)
    (default_subj : Span) (st : ExtState) (v : Nat × Token) (st' : ExtState)
    (h : processVerb sentToks main [] chunks addn default_subj st v = some st') :
    Kinv main chunks addn v.1 st' := by
  obtain ⟨hobj, hend⟩ := processVerb_obj_fields _ _ _ _ _ _ _ _ _ h
  rw [pickObj_nil_glob] at hobj hend
  cases hm : scanObj v.1 main.reverse none with
  | some o =>
    rw [hm] at hobj hend
    exact ⟨by rw [hobj, hend], Or.inr (Or.inl ⟨o, hm, by rw [hend]⟩)⟩
  | none =>
    rw [hm] at hobj hend
    cases hc : scanObj v.1 chunks.reverse none with
    | some o =>
      rw [hc] at hobj hend
      exact ⟨by rw [hobj, hend], Or.inr (Or.inr (Or.inl ⟨hm, o, hc, by rw [hend]⟩))⟩
    | none =>
      rw [hc] at hobj hend
      cases ha : scanObj v.1 addn.reverse none with
      | some o =>
        rw [ha] at hobj hend
        exact ⟨by rw [hobj, hend],
          Or.inr (Or.inr (Or.inr ⟨hm, hc, o, ha, by rw [hend]⟩))⟩
      | none =>
        rw [ha] at hobj hend
        exact ⟨by rw [hobj, hend], Or.inl ⟨hm, hc, ha⟩⟩

lemma processVerb_prev_obj_end_mono (sentToks : List Token)
    (main chunks addn : List Span) (default_subj : Span) (st : ExtState)
    (v : Nat × Token) (st' : ExtState) (u : Nat)
    (hm : List.Pairwise (fun a b : Span => b.stop ≤ a.stop) main.reverse)
    (hc : List.Pairwise (fun a b : Span => b.stop ≤ a.stop) chunks.reverse)
    (ha : List.Pairwise (fun a b : Span => b.stop ≤ a.stop) addn.reverse)
    (hK : Kinv main chunks addn u st) (huv : u < v.1)
    (h : processVerb sentToks main [] chunks addn default_subj st v = some st') :
    st.prev_obj_end ≤ st'.prev_obj_end := by
  obtain ⟨_, hend⟩ := processVerb_obj_fields _ _ _ _ _ _ _ _ _ h
  rw [pickObj_nil_glob] at hend
  obtain ⟨hKeq, hKcase⟩ := hK
  have hu_le_v : u ≤ v.1 := le_of_lt huv
  cases hmv : scanObj v.1 main.reverse none with
  | some o =>
    simp only [hmv] at hend
    rw [hend]
    rcases hKcase with ⟨hmu, _, _⟩ | ⟨ou, hou, houend⟩ | ⟨hmu, _⟩ | ⟨hmu, _⟩
    · exact absurd hmv (by rw [scanObj_none_mono hu_le_v _ hmu]; simp)
    · rw [← houend]
      exact scanObj_stop_mono hu_le_v main.reverse hm hou hmv
    · exact absurd hmv (by rw [scanObj_none_mono hu_le_v _ hmu]; simp)
    · exact absurd hmv (by rw [scanObj_none_mono hu_le_v _ hmu]; simp)
  | none =>
    cases hcv : scanObj v.1 chunks.reverse none with
    | some o =>
      simp only [hmv, hcv] at hend
      rw [hend]
      rcases hKcase with ⟨_, hcu, _⟩ | ⟨ou, hou, houend⟩ | ⟨_, ou, hou, houend⟩ |
        ⟨_, hcu, _⟩
      · exact absurd hcv (by rw [scanObj_none_mono hu_le_v _ hcu]; simp)
      · have hmem : ou ∈ main.reverse := by
          rcases scanObj_mem u main.reverse none ou hou with h2 | h2
          · cases h2
          · exact h2
        have h1 : ou.stop ≤ v.1 := scanObj_fail_bound v.1 main.reverse hm hmv ou hmem
        have h2 : v.1 < o.stop := (scanObj_min v.1 chunks.reverse hc o hcv).1
        omega
      · rw [← houend]
        exact scanObj_stop_mono hu_le_v chunks.reverse hc hou hcv
      · exact absurd hcv (by rw [scanObj_none_mono hu_le_v _ hcu]; simp)
    | none =>
      cases hav : scanObj v.1 addn.reverse none with
      | some o =>
        simp only [hmv, hcv, hav] at hend
        rw [hend]
        rcases hKcase with ⟨_, _, hau⟩ | ⟨ou, hou, houend⟩ | ⟨_, ou, hou, houend⟩ |
          ⟨_, _, ou, hou, houend⟩
        · exact absurd hav (by rw [scanObj_none_mono hu_le_v _ hau]; simp)
        · have hmem : ou ∈ main.reverse := by
            rcases scanObj_mem u main.reverse none ou hou with h2 | h2
            · cases h2
            · exact h2
          have h1 : ou.stop ≤ v.1 := scanObj_fail_bound v.1 main.reverse hm hmv ou hmem
          have h2 : v.1 < o.stop := (scanObj_min v.1 addn.reverse ha o hav).1
          omega
        · have hmem : ou ∈ chunks.reverse := by
            rcases scanObj_mem u chunks.reverse none ou hou with h2 | h2
            · cases h2
            · exact h2
          have h1 : ou.stop ≤ v.1 := scanObj_fail_bound v.1 chunks.reverse hc hcv ou hmem
          have h2 : v.1 < o.stop := (scanObj_min v.1 addn.reverse ha o hav).1
          omega
        · rw [← houend]
          exact scanObj_stop_mono hu_le_v addn.reverse ha hou hav
      | none =>
        simp only [hmv, hcv, hav] at hend
        rw [hend, hKeq]

lemma global_ents_nil (sent : SentIn) : global_ents [] sent = [] := by
  unfold global_ents
  rw [List.filter_eq_nil_iff.mpr ?_]
  · rfl
  · intro p _
    simp

lemma verbs_indices_increasing (sent : SentIn) :
    List.Pairwise (fun a b : Nat × Token => a.1 < b.1) (verbs sent) := by
  have h1 : List.Pairwise (· < ·) (sent.toks.enum.map Prod.fst) := by
    rw [List.enum_map_fst]
    exact List.pairwise_lt_range _
  have h2 : List.Pairwise (fun a b : Nat × Token => a.1 < b.1) sent.toks.enum :=
    List.pairwise_map.mp h1
  exact h2.sublist (List.filter_sublist _)

lemma statesAfter_chain_aux (sentToks : List Token) (main chunks addn : List Span)
    (default_subj : Span)
    (hm : List.Pairwise (fun a b : Span => b.stop ≤ a.stop) main.reverse)
    (hc : List.Pairwise (fun a b : Span => b.stop ≤ a.stop) chunks.reverse)
    (ha : List.Pairwise (fun a b : Span => b.stop ≤ a.stop) addn.reverse) :
    ∀ (vs : List (Nat × Token)) (st : ExtState) (u : Nat) (sts : List ExtState),
      Kinv main chunks addn u st →
      (∀ p ∈ vs, u < p.1) →
      List.Pairwise (fun a b : Nat × Token => a.1 < b.1) vs →
      statesAfter (processVerb sentToks main [] chunks addn default_subj) st vs = some sts →
      List.Chain' (fun a b : ExtState => a.prev_obj_end ≤ b.prev_obj_end) (st :: sts) := by
  intro vs
  induction vs with
  | nil =>
    intro st u sts _ _ _ h
    simp only [statesAfter] at h
    cases h
    simp
  | cons v rest ih =>
    intro st u sts hK hgt hpw h
    simp only [statesAfter] at h
    cases hf : processVerb sentToks main [] chunks addn default_subj st v with
    | none => rw [hf] at h; cases h
    | some st1 =>
      rw [hf] at h
      rw [Option.map_eq_some'] at h
      obtain ⟨sts2, hsts2, hsts⟩ := h
      rw [← hsts]
      have hK1 : Kinv main chunks addn v.1 st1 :=
        processVerb_establishes_Kinv _ _ _ _ _ _ _ _ hf
      have hmono : st.prev_obj_end ≤ st1.prev_obj_end :=
        processVerb_prev_obj_end_mono _ _ _ _ _ _ _ _ _ hm hc ha hK
          (hgt v (List.mem_cons_self v rest)) hf
      have hpw2 := List.pairwise_cons.mp hpw
      have hchain := ih st1 v.1 sts2 hK1 (fun p hp => hpw2.1 p hp) hpw2.2 hsts2
      exact List.chain'_cons.mpr ⟨hmono, hchain⟩

/-- C4 amended: in a sentence with no Global-tier entities, the running lower
bound `prev_obj_end` never decreases from one processed verb to the next
(the per-verb state trajectory is a `≤`-chain), provided each tier list is
ordered by span end as the adapter produces it. -/
theorem prev_obj_end_monotone_without_global (sent : SentIn) (default_subj : Span)
    (st0 : ExtState) (sts : List ExtState)
    (hm : List.Pairwise (fun a b : Span => a.stop ≤ b.stop) (main_ents sent))
    (hc : List.Pairwise (fun a b : Span => a.stop ≤ b.stop) (noun_chunks sent))
    (ha : List.Pairwise (fun a b : Span => a.stop ≤ b.stop) (addn_ents sent))
    (h : sentStates [] default_subj st0 sent = some sts) :
    List.Chain' (fun a b : ExtState => a.prev_obj_end ≤ b.prev_obj_end) sts := by
  unfold sentStates at h
  rw [global_ents_nil] at h
  have hm2 : List.Pairwise (fun a b : Span => b.stop ≤ a.stop) (main_ents sent).reverse :=
    List.pairwise_reverse.mpr hm
  have hc2 : List.Pairwise (fun a b : Span => b.stop ≤ a.stop) (noun_chunks sent).reverse :=
    List.pairwise_reverse.mpr hc
  have ha2 : List.Pairwise (fun a b : Span => b.stop ≤ a.stop) (addn_ents sent).reverse :=
    List.pairwise_reverse.mpr ha
  have hpw := verbs_indices_increasing sent
  cases hv : verbs sent with
  | nil =>
    rw [hv] at h
    simp only [statesAfter] at h
    cases h
    simp
  | cons v rest =>
    rw [hv] at h
    rw [hv] at hpw
    simp only [statesAfter] at h
    cases hf : processVerb sent.toks (main_ents sent) [] (noun_chunks sent)
        (addn_ents sent) default_subj { st0 with prev_obj_end := 0 } v with
    | none => rw [hf] at h; cases h
    | some st1 =>
      rw [hf] at h
      rw [Option.map_eq_some'] at h
      obtain ⟨sts2, hsts2, hsts⟩ := h
      rw [← hsts]
      have hK1 := processVerb_establishes_Kinv _ _ _ _ _ _ _ _ hf
      have hpw2 := List.pairwise_cons.mp hpw
      exact statesAfter_chain_aux _ _ _ _ _ hm2 hc2 ha2 rest st1 v.1 sts2 hK1
        (fun p hp => hpw2.1 p hp) hpw2.2 hsts2

/-- The sentence on which `prev_obj_end` decreases: the Global term "run" is
also the first verb's text, so the Global object tier is text-blocked at the
first verb (a noun chunk far to the right is chosen, `prev_obj_end` = 6) but
succeeds at the second verb with a much earlier span (`prev_obj_end` = 3). -/
def c4Sent : SentIn :=
  ⟨[⟨"run", "run", "VERB", false, false⟩, ⟨"sprint", "sprint", "VERB", false, false⟩,
    ⟨"run", "run", "NOUN", false, false⟩, ⟨"the", "the", "DET", true, false⟩,
    ⟨"alpha", "alpha", "NOUN", false, false⟩, ⟨"beta", "beta", "NOUN", false, false⟩],
   [], [⟨4, 6⟩]⟩

/-- C4 counterexample: with the Global tier non-empty, the recorded
`prev_obj_end` values after the two verbs of `c4Sent` are 6 then 3 — the
running lower bound decreases from one processed verb to the next. -/
theorem prev_obj_end_can_decrease :
    (sentStates ["run"] emptySpan ⟨[], emptySpan, emptySpan, 0⟩ c4Sent).map
        (fun l => l.map ExtState.prev_obj_end) = some [6, 3] ∧ (3 : Nat) < 6 :=
  ⟨by decide, by decide⟩

/-- One-verb sentence used to instantiate the monotonicity theorem. -/
def c4wSent : SentIn := ⟨[⟨"ran", "run", "VERB", false, false⟩], [], []⟩

/-- Witness for `prev_obj_end_monotone_without_global` on `c4wSent`. -/
theorem prev_obj_end_monotone_without_global_witness :
    List.Chain' (fun a b : ExtState => a.prev_obj_end ≤ b.prev_obj_end)
      [⟨[], emptySpan, emptySpan, 0⟩] :=
  prev_obj_end_monotone_without_global c4wSent emptySpan ⟨[], emptySpan, emptySpan, 0⟩
    [⟨[], emptySpan, emptySpan, 0⟩] List.Pairwise.nil List.Pairwise.nil List.Pairwise.nil
    (by decide)

/-! Order theory of the Python string comparison, for the subject sort. -/

lemma lexLe_cons_iff (x y : Char) (xs ys : List Char) :
    lexLe (x :: xs) (y :: ys) = true ↔ x < y ∨ (x = y ∧ lexLe xs ys = true) := by
  simp only [lexLe]
  by_cases h1 : x < y
  · simp [h1]
  · rw [if_neg h1]
    by_cases h2 : y < x
    · rw [if_pos h2]
      constructor
      · intro h; simp at h
      · rintro (h | ⟨rfl, h⟩)
        · exact absurd h h1
        · exact absurd h2 (lt_irrefl x)
    · have hxy : x = y := le_antisymm (not_lt.mp h2) (not_lt.mp h1)
      rw [if_neg h2]
      constructor
      · intro h; exact Or.inr ⟨hxy, h⟩
      · rintro (h | ⟨_, h⟩)
        · exact absurd h h1
        · exact h

lemma lexLe_total : ∀ a b : List Char, lexLe a b = true ∨ lexLe b a = true := by
  intro a
  induction a with
  | nil => intro b; exact Or.inl rfl
  | cons x xs ih =>
    intro b
    cases b with
    | nil => exact Or.inr rfl
    | cons y ys =>
      rcases lt_trichotomy x y with h | h | h
      · exact Or.inl ((lexLe_cons_iff x y xs ys).mpr (Or.inl h))
      · rcases ih ys with h2 | h2
        · exact Or.inl ((lexLe_cons_iff x y xs ys).mpr (Or.inr ⟨h, h2⟩))
        · exact Or.inr ((lexLe_cons_iff y x ys xs).mpr (Or.inr ⟨h.symm, h2⟩))
      · exact Or.inr ((lexLe_cons_iff y x ys xs).mpr (Or.inl h))

lemma lexLe_trans :
    ∀ a b c : List Char, lexLe a b = true → lexLe b c = true → lexLe a c = true := by
  intro a
  induction a with
  | nil => intro b c _ _; rfl
  | cons x xs ih =>
    intro b c hab hbc
    cases b with
    | nil => simp [lexLe] at hab
    | cons y ys =>
      cases c with
      | nil => simp [lexLe] at hbc
      | cons z zs =>
        rcases (lexLe_cons_iff x y xs ys).mp hab with h1 | ⟨hxy, h1b⟩
        · rcases (lexLe_cons_iff y z ys zs).mp hbc with h2 | ⟨hyz, h2b⟩
          · exact (lexLe_cons_iff x z xs zs).mpr (Or.inl (lt_trans h1 h2))
          · exact (lexLe_cons_iff x z xs zs).mpr (Or.inl (hyz ▸ h1))
        · rcases (lexLe_cons_iff y z ys zs).mp hbc with h2 | ⟨hyz, h2b⟩
          · exact (lexLe_cons_iff x z xs zs).mpr (Or.inl (hxy ▸ h2))
          · exact (lexLe_cons_iff x z xs zs).mpr
              (Or.inr ⟨hxy.trans hyz, ih ys zs h1b h2b⟩)

lemma lexLe_antisymm :
    ∀ a b : List Char, lexLe a b = true → lexLe b a = true → a = b := by
  intro a
  induction a with
  | nil =>
    intro b hab hba
    cases b with
    | nil => rfl
    | cons y ys => simp [lexLe] at hba
  | cons x xs ih =>
    intro b hab hba
    cases b with
    | nil => simp [lexLe] at hab
    | cons y ys =>
      rcases (lexLe_cons_iff x y xs ys).mp hab with h1 | ⟨hxy, h1b⟩
      · rcases (lexLe_cons_iff y x ys xs).mp hba with h2 | ⟨hyx, h2b⟩
        · exact absurd (lt_trans h1 h2) (lt_irrefl x)
        · rw [hyx] at h1
          exact absurd h1 (lt_irrefl x)
      · rcases (lexLe_cons_iff y x ys xs).mp hba with h2 | ⟨hyx, h2b⟩
        · rw [hxy] at h2
          exact absurd h2 (lt_irrefl y)
        · rw [hxy, ih ys h1b h2b]

instance : IsTotal String strLe := ⟨fun a b => lexLe_total a.data b.data⟩

instance : IsTrans String strLe := ⟨fun a b c => lexLe_trans a.data b.data c.data⟩

instance : IsAntisymm String strLe :=
  ⟨fun a b hab hba => by
    have h := lexLe_antisymm a.data b.data hab hba
    cases a
    cases b
    exact congrArg String.mk h⟩

lemma sortedSubjects_sorted (ts : List Triplet) :
    List.Sorted strLe (sortedSubjects ts) :=
  List.sorted_insertionSort strLe _

lemma sortedSubjects_nodup (ts : List Triplet) : (sortedSubjects ts).Nodup :=
  (List.perm_insertionSort strLe _).nodup_iff.mpr (List.nodup_dedup _)

lemma sortedSubjects_mem (ts : List Triplet) (x : String) :
    x ∈ sortedSubjects ts ↔ x ∈ ts.map Triplet.subject :=
  ((List.perm_insertionSort strLe _).mem_iff).trans List.mem_dedup

/-! The cursor walk of the subject merge, for claim C9. -/

/-- The subjects kept as cursors by the merge walk starting from `prev`. -/
def cursors (prev : String) : List String → List String
  | [] => []
  | s :: rest => if pyIn prev s then cursors prev rest else s :: cursors s rest

lemma cursors_sublist : ∀ (L : List String) (prev : String), (cursors prev L).Sublist L := by
  intro L
  induction L with
  | nil => intro prev; simp [cursors]
  | cons s rest ih =>
    intro prev
    simp only [cursors]
    by_cases h : pyIn prev s = true
    · rw [if_pos h]
      exact (ih prev).cons s
    · rw [if_neg h]
      exact (ih s).cons₂ s

lemma cursors_chain :
    ∀ (L : List String) (prev : String),
      List.Chain' (fun a b => pyIn a b = false) (prev :: cursors prev L) := by
  intro L
  induction L with
  | nil => intro prev; simp [cursors]
  | cons s rest ih =>
    intro prev
    simp only [cursors]
    by_cases h : pyIn prev s = true
    · rw [if_pos h]
      exact ih prev
    · rw [if_neg h]
      exact List.chain'_cons.mpr ⟨Bool.not_eq_true _ ▸ h, ih s⟩

lemma mergePass_no_sub :
    ∀ (L : List String) (rows : List Triplet) (prev : String),
      List.Chain' (fun a b => pyIn a b = false) (prev :: L) →
      mergePass rows prev L = rows := by
  intro L
  induction L with
  | nil => intro rows prev _; rfl
  | cons s rest ih =>
    intro rows prev hch
    have h2 := List.chain'_cons.mp hch
    simp only [mergePass]
    rw [if_neg (by rw [h2.1]; simp)]
    exact ih rows s h2.2

lemma mergeRewrite_subjects {rows : List Triplet} {prevS s : String} {r : Triplet}
    (h : r ∈ mergeRewrite rows prevS s) :
    r.subject = prevS ∨ (∃ r0 ∈ rows, r.subject = r0.subject ∧ r.subject ≠ s) := by
  obtain ⟨r0, hr0, heq⟩ := List.mem_map.mp h
  by_cases hs : r0.subject == s
  · rw [if_pos hs] at heq
    exact Or.inl (by rw [← heq])
  · rw [if_neg hs] at heq
    refine Or.inr ⟨r0, hr0, by rw [← heq], ?_⟩
    rw [← heq]
    simpa using hs

lemma mergeRewrite_preserves {rows : List Triplet} {prevS s x : String} (hx : x ≠ s)
    (h : ∃ r ∈ rows, r.subject = x) : ∃ r ∈ mergeRewrite rows prevS s, r.subject = x := by
  obtain ⟨r, hr, hsub⟩ := h
  refine ⟨(fun r : Triplet =>
    if r.subject == s then
      { r with subject := prevS,
               relation := (stripStr (pyRemoveStr s prevS)) ++ " " ++ r.relation }
    else r) r, List.mem_map_of_mem _ hr, ?_⟩
  simp only []
  rw [if_neg (by simp [hsub, hx])]
  exact hsub

lemma mergePass_subject_mem :
    ∀ (L : List String) (rows : List Triplet) (prev : String),
      ∀ r ∈ mergePass rows prev L,
        (∃ r0 ∈ rows, r.subject = r0.subject ∧ r.subject ∉ L) ∨
          r.subject = prev ∨ r.subject ∈ cursors prev L := by
  intro L
  induction L with
  | nil =>
    intro rows prev r hr
    simp only [mergePass] at hr
    exact Or.inl ⟨r, hr, rfl, by simp⟩
  | cons s rest ih =>
    intro rows prev r hr
    simp only [mergePass] at hr
    by_cases hin : pyIn prev s = true
    · rw [if_pos hin] at hr
      rcases ih (mergeRewrite rows prev s) prev r hr with ⟨r0, hr0, heq, hnot⟩ | h | h
      · rcases mergeRewrite_subjects hr0 with h1 | ⟨r1, hr1, heq1, hne1⟩
        · exact Or.inr (Or.inl (heq.trans h1))
        · refine Or.inl ⟨r1, hr1, heq.trans heq1, ?_⟩
          intro hmem
          rcases List.mem_cons.mp hmem with h2 | h2
          · exact (heq ▸ hne1) h2
          · exact hnot h2
      · exact Or.inr (Or.inl h)
      · refine Or.inr (Or.inr ?_)
        simp only [cursors, if_pos hin]
        exact h
    · rw [if_neg hin] at hr
      rcases ih rows s r hr with ⟨r0, hr0, heq, hnot⟩ | h | h
      · by_cases hrs : r.subject = s
        · refine Or.inr (Or.inr ?_)
          simp only [cursors, if_neg hin]
          exact List.mem_cons.mpr (Or.inl hrs)
        · refine Or.inl ⟨r0, hr0, heq, ?_⟩
          intro hmem
          rcases List.mem_cons.mp hmem with h2 | h2
          · exact hrs h2
          · exact hnot h2
      · refine Or.inr (Or.inr ?_)
        simp only [cursors, if_neg hin]
        exact List.mem_cons.mpr (Or.inl h)
      · refine Or.inr (Or.inr ?_)
        simp only [cursors, if_neg hin]
        exact List.mem_cons.mpr (Or.inr h)

lemma mergePass_preserves_other (x : String) :
    ∀ (L : List String) (rows : List Triplet) (prev : String), x ∉ L →
      (∃ r ∈ rows, r.subject = x) → ∃ r ∈ mergePass rows prev L, r.subject = x := by
  intro L
  induction L with
  | nil =>
    intro rows prev _ h
    simpa [mergePass] using h
  | cons s rest ih =>
    intro rows prev hnot h
    have hxs : x ≠ s := fun hc => hnot (List.mem_cons.mpr (Or.inl hc))
    have hxrest : x ∉ rest := fun hc => hnot (List.mem_cons.mpr (Or.inr hc))
    simp only [mergePass]
    by_cases hin : pyIn prev s = true
    · rw [if_pos hin]
      exact ih (mergeRewrite rows prev s) prev hxrest (mergeRewrite_preserves hxs h)
    · rw [if_neg hin]
      exact ih rows s hxrest h

lemma mergePass_cursors_present :
    ∀ (L : List String) (rows : List Triplet) (prev : String),
      List.Pairwise (fun a b => a ≠ b) (prev :: L) →
      (∀ s ∈ L, ∃ r ∈ rows, r.subject = s) →
      (∃ r ∈ rows, r.subject = prev) →
      ∀ c ∈ prev :: cursors prev L, ∃ r ∈ mergePass rows prev L, r.subject = c := by
  intro L
  induction L with
  | nil =>
    intro rows prev _ _ hprev c hc
    simp only [cursors] at hc
    rcases List.mem_cons.mp hc with rfl | h2
    · simpa [mergePass] using hprev
    · simp at h2
  | cons s rest ih =>
    intro rows prev hnd hall hprev c hc
    have hnd1 := List.pairwise_cons.mp hnd
    have hnd2 := List.pairwise_cons.mp hnd1.2
    simp only [mergePass]
    by_cases hin : pyIn prev s = true
    · rw [if_pos hin]
      simp only [cursors, if_pos hin] at hc
      refine ih (mergeRewrite rows prev s) prev ?_ ?_ ?_ c hc
      · exact List.pairwise_cons.mpr
          ⟨fun y hy => hnd1.1 y (List.mem_cons_of_mem s hy), hnd2.2⟩
      · intro s2 hs2
        exact mergeRewrite_preserves (fun hc2 => (hnd2.1 s2 hs2) hc2.symm)
          (hall s2 (List.mem_cons_of_mem s hs2))
      · exact mergeRewrite_preserves (hnd1.1 s (List.mem_cons_self s rest)) hprev
    · rw [if_neg hin]
      simp only [cursors, if_neg hin] at hc
      rcases List.mem_cons.mp hc with rfl | hc2
      · exact mergePass_preserves_other c rest rows s
          (fun hc2 => (hnd1.1 c (List.mem_cons_of_mem s hc2)) rfl) hprev
      · exact ih rows s hnd1.2 (fun y hy => hall y (List.mem_cons_of_mem s hy))
          (hall s (List.mem_cons_self s rest)) c hc2

/-- C9: the subject merge is idempotent on any non-empty collection: it
succeeds, and running it a second time returns its own output unchanged. -/
theorem merge_duplicate_subjs_idempotent (ts : List Triplet) (hne : ts ≠ []) :
    (∃ u, merge_duplicate_subjs ts = some u) ∧
      (merge_duplicate_subjs ts).bind merge_duplicate_subjs = merge_duplicate_subjs ts := by
  have hsne : sortedSubjects ts ≠ [] := by
    intro h
    have hperm := List.perm_insertionSort strLe ((ts.map Triplet.subject).dedup)
    rw [sortedSubjects] at h
    rw [h] at hperm
    have hd : (ts.map Triplet.subject).dedup = [] := hperm.symm.eq_nil
    rw [List.dedup_eq_nil] at hd
    exact hne (List.map_eq_nil_iff.mp hd)
  cases hL : sortedSubjects ts with
  | nil => exact absurd hL hsne
  | cons c0 L0 =>
    have hsorted0 : List.Sorted strLe (c0 :: L0) := hL ▸ sortedSubjects_sorted ts
    have hnodup0 : (c0 :: L0).Nodup := hL ▸ sortedSubjects_nodup ts
    have hmerge1 : merge_duplicate_subjs ts = some (mergePass ts c0 L0) := by
      unfold merge_duplicate_subjs
      rw [hL]
    have hsub : (c0 :: cursors c0 L0).Sublist (c0 :: L0) :=
      (cursors_sublist L0 c0).cons₂ c0
    have hkey : sortedSubjects (mergePass ts c0 L0) = c0 :: cursors c0 L0 := by
      have hmemiff : ∀ x, x ∈ sortedSubjects (mergePass ts c0 L0) ↔
          x ∈ c0 :: cursors c0 L0 := by
        intro x
        rw [sortedSubjects_mem]
        constructor
        · intro hx
          obtain ⟨r, hr, hrx⟩ := List.mem_map.mp hx
          rw [← hrx]
          rcases mergePass_subject_mem L0 ts c0 r hr with ⟨r0, hr0, heq, hnot⟩ | h | h
          · have hr0mem : r0.subject ∈ c0 :: L0 := by
              rw [← hL, sortedSubjects_mem]
              exact List.mem_map_of_mem _ hr0
            rcases List.mem_cons.mp hr0mem with h2 | h2
            · rw [heq, h2]
              exact List.mem_cons_self _ _
            · exact absurd (heq ▸ h2) hnot
          · rw [h]
            exact List.mem_cons_self _ _
          · exact List.mem_cons_of_mem _ h
        · intro hx
          have hall : ∀ s ∈ L0, ∃ r ∈ ts, r.subject = s := by
            intro s hs
            have : s ∈ ts.map Triplet.subject := by
              rw [← sortedSubjects_mem, hL]
              exact List.mem_cons_of_mem _ hs
            obtain ⟨r, hr, heq⟩ := List.mem_map.mp this
            exact ⟨r, hr, heq⟩
          have hprev : ∃ r ∈ ts, r.subject = c0 := by
            have : c0 ∈ ts.map Triplet.subject := by
              rw [← sortedSubjects_mem, hL]
              exact List.mem_cons_self _ _
            obtain ⟨r, hr, heq⟩ := List.mem_map.mp this
            exact ⟨r, hr, heq⟩
          obtain ⟨r, hr, heq⟩ :=
            mergePass_cursors_present L0 ts c0 hnodup0 hall hprev x hx
          exact List.mem_map.mpr ⟨r, hr, heq⟩
      have hperm2 : (sortedSubjects (mergePass ts c0 L0)).Perm (c0 :: cursors c0 L0) :=
        (List.perm_ext_iff_of_nodup (sortedSubjects_nodup _) (hnodup0.sublist hsub)).2
          hmemiff
      exact List.eq_of_perm_of_sorted hperm2 (sortedSubjects_sorted _)
        (hsorted0.sublist hsub)
    have hmerge2 : merge_duplicate_subjs (mergePass ts c0 L0) =
        some (mergePass (mergePass ts c0 L0) c0 (cursors c0 L0)) := by
      unfold merge_duplicate_subjs
      rw [hkey]
    have hnoop : mergePass (mergePass ts c0 L0) c0 (cursors c0 L0) = mergePass ts c0 L0 :=
      mergePass_no_sub _ _ _ (cursors_chain L0 c0)
    refine ⟨⟨mergePass ts c0 L0, hmerge1⟩, ?_⟩
    rw [hmerge1]
    simp only [Option.bind]
    rw [hmerge2, hnoop]

/-- Witness for `merge_duplicate_subjs_idempotent` on the documentation's
"bayer" example. -/
theorem merge_duplicate_subjs_idempotent_witness :
    (∃ u, merge_duplicate_subjs
        [⟨"bayer", "r1", "o1"⟩, ⟨"bayer ag", "r2", "o2"⟩,
         ⟨"bayer healthcare", "r3", "o3"⟩] = some u) ∧
      (merge_duplicate_subjs
          [⟨"bayer", "r1", "o1"⟩, ⟨"bayer ag", "r2", "o2"⟩,
           ⟨"bayer healthcare", "r3", "o3"⟩]).bind merge_duplicate_subjs =
        merge_duplicate_subjs
          [⟨"bayer", "r1", "o1"⟩, ⟨"bayer ag", "r2", "o2"⟩,
           ⟨"bayer healthcare", "r3", "o3"⟩] :=
  merge_duplicate_subjs_idempotent
    [⟨"bayer", "r1", "o1"⟩, ⟨"bayer ag", "r2", "o2"⟩, ⟨"bayer healthcare", "r3", "o3"⟩]
    (by decide)

end KG
